import Mathlib

/-!
Shallow embedding of `data_utils.py` (vocabulary construction and token-ID
encoding pipeline) and verification of its specification.

Modelling conventions:
* a byte string is a `List Char` (the source works on byte strings; every
  byte of interest here is an ASCII code point, so `Char` is faithful);
* the file system is an association list from paths to raw file contents;
* a Python `dict` is an insertion-ordered association list whose insert
  overwrites the value of an existing key in place, exactly as CPython does;
* effectful functions take the file system as an explicit argument and
  return the updated file system together with an optional error, in the
  order the source performs its reads and writes.
-/

namespace DataUtils

abbrev Bytes := List Char

abbrev Path := String

/-- The whitespace characters of Python's `bytes.split()` / `bytes.strip()`
(space, tab, linefeed, carriage return, vertical tab, form feed). -/
def isSpace (c : Char) : Bool :=
  c == ' ' || c == '\t' || c == '\n' || c == '\r' || c == '\x0b' || c == '\x0c'

/-- The punctuation set of `_WORD_SPLIT = re.compile(b"([.,!?\x22':;)(])")`.
The double-quote and apostrophe characters are written as code points 34
and 39. -/
def isPunct (c : Char) : Bool :=
  c == '.' || c == ',' || c == '!' || c == '?' || c == Char.ofNat 34 ||
  c == Char.ofNat 39 || c == ':' || c == ';' || c == ')' || c == '('

/-- Python `s.strip()`: drop whitespace from both ends. -/
def pyStrip (s : Bytes) : Bytes :=
  ((s.dropWhile isSpace).reverse.dropWhile isSpace).reverse

/-- Accumulator version of Python `s.split()` (split on whitespace runs,
dropping empty fragments).  `acc` holds the current fragment reversed. -/
def pySplitAux : Bytes → Bytes → List Bytes
  | [], acc => if acc.isEmpty then [] else [acc.reverse]
  | c :: rest, acc =>
    if isSpace c then
      if acc.isEmpty then pySplitAux rest [] else acc.reverse :: pySplitAux rest []
    else
      pySplitAux rest (c :: acc)

/-- Python `s.split()` with no separator argument. -/
def pySplit (s : Bytes) : List Bytes :=
  pySplitAux s []

/-- `_WORD_SPLIT.split(fragment)`: `re.split` with a single-character
capturing class keeps each punctuation character as its own piece and may
produce empty pieces between adjacent punctuation characters. -/
def splitPunct : Bytes → List Bytes
  | [] => [[]]
  | c :: rest =>
    if isPunct c then [] :: [c] :: splitPunct rest
    else
      match splitPunct rest with
      | [] => [[c]]
      | t :: ts => (c :: t) :: ts

/-- `basic_tokenizer(sentence)`: split the stripped sentence on whitespace,
split each fragment at punctuation, and keep the non-empty pieces. -/
def basic_tokenizer (sentence : Bytes) : List Bytes :=
  (((pySplit (pyStrip sentence)).map splitPunct).flatten).filter (fun w => !w.isEmpty)

/-- The type of tokenizer overrides accepted throughout the source. -/
abbrev Tokenizer := Bytes → List Bytes

/-- `tokenizer(line) if tokenizer else basic_tokenizer(line)`. -/
def applyTokenizer (tokenizer : Option Tokenizer) (line : Bytes) : List Bytes :=
  match tokenizer with
  | some t => t line
  | none => basic_tokenizer line

/-- `_DIGIT_RE.sub(b"0", w)`: replace every digit character by `0`
(per-character substitution, `\d` on bytes matching exactly `0`–`9`). -/
def subDigits : Bytes → Bytes
  | [] => []
  | c :: cs => (if c.isDigit then '0' else c) :: subDigits cs

def _PAD : Bytes := "_PAD".toList

def _GO : Bytes := "_GO".toList

def _EOS : Bytes := "_EOS".toList

def _UNK : Bytes := "_UNK".toList

def _START_VOCAB : List Bytes := [_PAD, _GO, _EOS, _UNK]

def PAD_ID : Nat := 0

def GO_ID : Nat := 1

def EOS_ID : Nat := 2

def UNK_ID : Nat := 3

/-- A Python `dict` keyed by byte strings, as an insertion-ordered
association list (no duplicate keys arise from the operations below). -/
abbrev Dict := List (Bytes × Nat)

/-- `d.get(k)` / `d[k]`: value of the first (and, for dicts built by the
operations below, only) entry with key `k`. -/
def dictGet (d : Dict) (k : Bytes) : Option Nat :=
  (d.find? (fun e => e.1 == k)).map (fun e => e.2)

/-- `d[k] = v`: overwrite the value in place if the key is present,
otherwise append a new entry, as CPython dict assignment does. -/
def dictInsert (d : Dict) (k : Bytes) (v : Nat) : Dict :=
  if d.any (fun e => e.1 == k) then
    d.map (fun e => if e.1 == k then (e.1, v) else e)
  else
    d ++ [(k, v)]

/-- `dict([(x, y) for (y, x) in enumerate(rev_vocab)])`: sequential
insertion of (token, position) pairs, later positions overwriting. -/
def buildDict (rev_vocab : List Bytes) : Dict :=
  (rev_vocab.enum.map (fun e => (e.2, e.1))).foldl
    (fun d kv => dictInsert d kv.1 kv.2) []

/-- The counting step of `create_vocabulary`: `vocab[word] += 1` if present,
else `vocab[word] = 1` (which appends, preserving insertion order). -/
def bumpCount (d : Dict) (w : Bytes) : Dict :=
  if d.any (fun e => e.1 == w) then
    d.map (fun e => if e.1 == w then (e.1, e.2 + 1) else e)
  else
    d ++ [(w, 1)]

/-- The frequency table of a token stream, keys in first-occurrence order. -/
def countTokens (ws : List Bytes) : Dict :=
  ws.foldl bumpCount []

/-- `vocab.get(w)` read as a count, `0` when absent. -/
def countOf (d : Dict) (w : Bytes) : Nat :=
  (dictGet d w).getD 0

/-- Python file iteration: split the raw content into lines, each line
keeping its terminating linefeed; a final fragment with no linefeed is
kept iff non-empty.  `acc` holds the current line reversed. -/
def linesAux : Bytes → Bytes → List Bytes
  | [], acc => if acc.isEmpty then [] else [acc.reverse]
  | c :: rest, acc =>
    if c = '\n' then (c :: acc).reverse :: linesAux rest []
    else linesAux rest (c :: acc)

def linesOf (content : Bytes) : List Bytes :=
  linesAux content []

/-- `_DIGIT_RE.sub(b"0", w) if normalize_digits else w`. -/
def normalizeToken (normalize_digits : Bool) (w : Bytes) : Bytes :=
  if normalize_digits then subDigits w else w

/-- The stream of (possibly digit-normalized) tokens `create_vocabulary`
counts: every line of the corpus, tokenized, in order. -/
def corpusTokens (tokenizer : Option Tokenizer) (normalize_digits : Bool)
    (content : Bytes) : List Bytes :=
  ((linesOf content).map
    (fun line => (applyTokenizer tokenizer line).map (normalizeToken normalize_digits))).flatten

/-- Stable insertion (from the right) used to model Python's stable
`sorted(..., reverse=True)`: `w` precedes every element it ties with,
because `w` occurs before the already-sorted suffix in the input. -/
def insertDescBy (cnt : Bytes → Nat) (w : Bytes) : List Bytes → List Bytes
  | [] => [w]
  | x :: xs => if cnt w < cnt x then x :: insertDescBy cnt w xs else w :: x :: xs

/-- `sorted(vocab, key=vocab.get, reverse=True)`: the stable descending
sort by count.  A stable sort's output is uniquely determined by the key
function and the input order, so insertion sort is an exact model. -/
def sortDescBy (cnt : Bytes → Nat) : List Bytes → List Bytes
  | [] => []
  | w :: ws => insertDescBy cnt w (sortDescBy cnt ws)

/-- Lines 98–115 of the source: the vocabulary list `create_vocabulary`
computes from a corpus before writing it out: reserved symbols, then the
counted tokens in descending frequency order, truncated when longer than
`max_vocabulary_size`. -/
def vocab_list_of (tokenizer : Option Tokenizer) (normalize_digits : Bool)
    (content : Bytes) (max_vocabulary_size : Nat) : List Bytes :=
  let vocab := countTokens (corpusTokens tokenizer normalize_digits content)
  let vocab_list := _START_VOCAB ++ sortDescBy (fun w => countOf vocab w) (vocab.map (fun e => e.1))
  if vocab_list.length > max_vocabulary_size then
    vocab_list.take max_vocabulary_size
  else
    vocab_list

/-- The file system: an association list from paths to raw contents. -/
structure FS where
  files : List (Path × Bytes)
deriving DecidableEq

def FS.lookup (fs : FS) (p : Path) : Option Bytes :=
  (fs.files.find? (fun e => e.1 == p)).map (fun e => e.2)

/-- `gfile.Exists(p)`. -/
def FS.pathExists (fs : FS) (p : Path) : Bool :=
  (fs.lookup p).isSome

/-- Opening a file in mode `wb` and writing `c`: replace any previous
content at `p`. -/
def FS.write (fs : FS) (p : Path) (c : Bytes) : FS :=
  ⟨(p, c) :: fs.files.filter (fun e => !(e.1 == p))⟩

inductive FsError where
  | fileNotFound
  | vocabularyNotFound
deriving DecidableEq

/-- `create_vocabulary(vocabulary_path, data_path, max_vocabulary_size,
tokenizer, normalize_digits)`.  A no-op when the vocabulary file already
exists; an error when the corpus is missing (the corpus is opened before
the vocabulary file, so nothing is written in that case); otherwise writes
the computed vocabulary list, one token per line. -/
def create_vocabulary (fs : FS) (vocabulary_path data_path : Path)
    (max_vocabulary_size : Nat) (tokenizer : Option Tokenizer)
    (normalize_digits : Bool) : FS × Option FsError :=
  if fs.pathExists vocabulary_path then (fs, none)
  else
    match fs.lookup data_path with
    | none => (fs, some FsError.fileNotFound)
    | some content =>
      let vocab_list := vocab_list_of tokenizer normalize_digits content max_vocabulary_size
      (fs.write vocabulary_path ((vocab_list.map (fun w => w ++ ['\n'])).flatten), none)

/-- `initialize_vocabulary(vocabulary_path)` (the leading underscore-free
source name starts with a word this development cannot use as an
identifier, hence the abbreviated Lean name): raises when the file is
missing, otherwise returns the token-to-ID dict and the stripped lines in
file order. -/
def init_vocabulary (fs : FS) (vocabulary_path : Path) :
    Except FsError (Dict × List Bytes) :=
  match fs.lookup vocabulary_path with
  | some content =>
    let rev_vocab := (linesOf content).map pyStrip
    Except.ok (buildDict rev_vocab, rev_vocab)
  | none => Except.error FsError.vocabularyNotFound

/-- `sentence_to_token_ids(sentence, vocabulary, tokenizer,
normalize_digits)`: tokenize, optionally digit-normalize each token, and
look each token up with default `UNK_ID`. -/
def sentence_to_token_ids (sentence : Bytes) (vocabulary : Dict)
    (tokenizer : Option Tokenizer) (normalize_digits : Bool) : List Nat :=
  let words := applyTokenizer tokenizer sentence
  if !normalize_digits then
    words.map (fun w => (dictGet vocabulary w).getD UNK_ID)
  else
    words.map (fun w => (dictGet vocabulary (subDigits w)).getD UNK_ID)

def digitChar (d : Nat) : Char :=
  Char.ofNat (48 + d)

/-- Decimal digits of `n`, most significant first, with enough fuel for
the recursion to be structural.  `fuel = n + 1` always suffices. -/
def natDigitsAux : Nat → Nat → List Char
  | 0, _ => []
  | fuel + 1, n =>
    if n < 10 then [digitChar n]
    else natDigitsAux fuel (n / 10) ++ [digitChar (n % 10)]

/-- Python `str(tok)` for a non-negative integer. -/
def natDigits (n : Nat) : List Char :=
  natDigitsAux (n + 1) n

/-- Python `" ".join(pieces)`. -/
def spaceJoin : List Bytes → Bytes
  | [] => []
  | [w] => w
  | w :: ws => w ++ ' ' :: spaceJoin ws

/-- `" ".join([str(tok) for tok in token_ids])`. -/
def renderIds (token_ids : List Nat) : Bytes :=
  spaceJoin (token_ids.map natDigits)

/-- `data_to_token_ids(data_path, target_path, vocabulary_path, tokenizer,
normalize_digits)`: a no-op when the target exists; otherwise loads the
vocabulary (propagating its error), opens the corpus (before the target is
created, so a missing corpus writes nothing) and writes one line of
space-joined decimal IDs per corpus line. -/
def data_to_token_ids (fs : FS) (data_path target_path vocabulary_path : Path)
    (tokenizer : Option Tokenizer) (normalize_digits : Bool) : FS × Option FsError :=
  if fs.pathExists target_path then (fs, none)
  else
    match init_vocabulary fs vocabulary_path with
    | Except.error e => (fs, some e)
    | Except.ok (vocab, _) =>
      match fs.lookup data_path with
      | none => (fs, some FsError.fileNotFound)
      | some content =>
        let out := ((linesOf content).map
          (fun line => renderIds (sentence_to_token_ids line vocab tokenizer normalize_digits) ++ ['\n'])).flatten
        (fs.write target_path out, none)

/-! ### Lemmas about the tokenizer -/

theorem splitPunct_flatten (l : Bytes) : (splitPunct l).flatten = l := by
  induction l with
  | nil => simp [splitPunct]
  | cons c rest ih =>
    cases hp : isPunct c with
    | true => simp [splitPunct, hp, ih]
    | false =>
      cases hsp : splitPunct rest with
      | nil =>
        rw [hsp] at ih
        simp at ih
        subst ih
        simp [splitPunct] at hsp
      | cons t ts =>
        rw [hsp] at ih
        simp only [splitPunct, hp, Bool.false_eq_true, if_false, hsp, List.flatten_cons]
        simp only [List.flatten_cons] at ih
        simp [ih]

theorem splitPunct_mem : ∀ (l p : Bytes), p ∈ splitPunct l → ∀ c ∈ p, c ∈ l := by
  intro l
  induction l with
  | nil =>
    intro p hp c hc
    simp [splitPunct] at hp
    subst hp
    simp at hc
  | cons a rest ih =>
    intro p hp c hc
    cases ha : isPunct a with
    | true =>
      simp only [splitPunct, ha, if_true, List.mem_cons] at hp
      rcases hp with h | h | h
      · subst h; simp at hc
      · subst h; simp at hc; simp [hc]
      · exact List.mem_cons_of_mem _ (ih p h c hc)
    | false =>
      cases hsp : splitPunct rest with
      | nil =>
        simp only [splitPunct, ha, Bool.false_eq_true, if_false, hsp] at hp
        simp at hp
        subst hp
        simp at hc
        simp [hc]
      | cons t ts =>
        simp only [splitPunct, ha, Bool.false_eq_true, if_false, hsp] at hp
        rcases List.mem_cons.mp hp with h | h
        · subst h
          rcases List.mem_cons.mp hc with h1 | h1
          · simp [h1]
          · exact List.mem_cons_of_mem _ (ih t (by simp [hsp]) c h1)
        · exact List.mem_cons_of_mem _ (ih p (by simp [hsp, h]) c hc)

theorem pySplitAux_mem : ∀ (s acc : Bytes), (∀ c ∈ acc, isSpace c = false) →
    ∀ f ∈ pySplitAux s acc, f ≠ [] ∧ ∀ c ∈ f, isSpace c = false := by
  intro s
  induction s with
  | nil =>
    intro acc hacc f hf
    cases hemp : acc.isEmpty with
    | true => simp [pySplitAux, hemp] at hf
    | false =>
      simp only [pySplitAux, hemp, Bool.false_eq_true, if_false, List.mem_singleton] at hf
      subst hf
      constructor
      · simp [List.isEmpty_iff] at hemp
        simpa using hemp
      · intro c hc
        exact hacc c (List.mem_reverse.mp hc)
  | cons a rest ih =>
    intro acc hacc f hf
    cases hsp : isSpace a with
    | true =>
      cases hemp : acc.isEmpty with
      | true =>
        simp only [pySplitAux, hsp, if_true, hemp] at hf
        exact ih [] (by simp) f hf
      | false =>
        simp only [pySplitAux, hsp, if_true, hemp, Bool.false_eq_true, if_false,
          List.mem_cons] at hf
        rcases hf with h | h
        · subst h
          constructor
          · simp [List.isEmpty_iff] at hemp
            simpa using hemp
          · intro c hc
            exact hacc c (List.mem_reverse.mp hc)
        · exact ih [] (by simp) f h
    | false =>
      simp only [pySplitAux, hsp, Bool.false_eq_true, if_false] at hf
      refine ih (a :: acc) ?_ f hf
      intro c hc
      rcases List.mem_cons.mp hc with h | h
      · subst h; exact hsp
      · exact hacc c h

theorem flatten_filter_nonempty : ∀ L : List Bytes,
    ((L.filter (fun w => !w.isEmpty)).flatten) = L.flatten := by
  intro L
  induction L with
  | nil => rfl
  | cons w ws ih =>
    cases hw : w.isEmpty with
    | true =>
      have : w = [] := List.isEmpty_iff.mp hw
      subst this
      simpa [List.filter_cons] using ih
    | false =>
      simp [List.filter_cons, hw, ih]

/-- Claim C10: every token produced by `basic_tokenizer` is non-empty and
contains no whitespace character, and for each whitespace-separated
fragment of the input line, concatenating the (non-empty) pieces the
tokenizer cuts it into reconstructs the fragment exactly: no
non-whitespace character is dropped or altered. -/
theorem basic_tokenizer_sound : ∀ sentence : Bytes,
    (∀ w ∈ basic_tokenizer sentence, w ≠ [] ∧ ∀ c ∈ w, isSpace c = false) ∧
    (∀ frag ∈ pySplit (pyStrip sentence),
      ((splitPunct frag).filter (fun w => !w.isEmpty)).flatten = frag) := by
  intro sentence
  constructor
  · intro w hw
    simp only [basic_tokenizer, List.mem_filter] at hw
    obtain ⟨hmem, hne⟩ := hw
    refine ⟨by simpa [List.isEmpty_iff] using hne, ?_⟩
    rw [List.mem_flatten] at hmem
    obtain ⟨ps, hps, hwps⟩ := hmem
    rw [List.mem_map] at hps
    obtain ⟨frag, hfrag, hfp⟩ := hps
    subst hfp
    intro c hc
    have hcf : c ∈ frag := splitPunct_mem frag w hwps c hc
    have := pySplitAux_mem (pyStrip sentence) [] (by simp) frag hfrag
    exact this.2 c hcf
  · intro frag _
    rw [flatten_filter_nonempty, splitPunct_flatten]

/-- Witness for C10 at a concrete sentence. -/
theorem basic_tokenizer_sound_witness :
    ("He".toList ≠ [] ∧ ∀ c ∈ "He".toList, isSpace c = false) ∧
    ((splitPunct "Hi,a".toList).filter (fun w => !w.isEmpty)).flatten = "Hi,a".toList := by
  have h := basic_tokenizer_sound "Hi,a He".toList
  exact ⟨h.1 "He".toList (by decide), h.2 "Hi,a".toList (by decide)⟩

/-! ### Lemmas about the file-system model -/

theorem FS.lookup_write_self (fs : FS) (p : Path) (c : Bytes) :
    (fs.write p c).lookup p = some c := by
  simp [FS.write, FS.lookup, List.find?_cons]

/-- Claim C3: when a file already exists at the vocabulary path,
`create_vocabulary` is a no-op returning the file system unchanged (in
particular it reads nothing: the result does not depend on the corpus),
and running the builder a second time with the same arguments leaves the
file system exactly as one run leaves it. -/
theorem create_vocabulary_idempotent : ∀ (fs : FS) (vp dp : Path) (m : Nat)
    (tok : Option Tokenizer) (nd : Bool),
    (fs.pathExists vp = true → create_vocabulary fs vp dp m tok nd = (fs, none)) ∧
    (create_vocabulary (create_vocabulary fs vp dp m tok nd).1 vp dp m tok nd).1 =
      (create_vocabulary fs vp dp m tok nd).1 := by
  intro fs vp dp m tok nd
  constructor
  · intro h
    simp [create_vocabulary, h]
  · cases hex : fs.pathExists vp with
    | true => simp [create_vocabulary, hex]
    | false =>
      cases hdp : fs.lookup dp with
      | none => simp [create_vocabulary, hex, hdp]
      | some content =>
        have h1 : create_vocabulary fs vp dp m tok nd =
            (fs.write vp (((vocab_list_of tok nd content m).map (fun w => w ++ ['\n'])).flatten),
              none) := by
          simp [create_vocabulary, hex, hdp]
        rw [h1]
        have h2 : (fs.write vp (((vocab_list_of tok nd content m).map
            (fun w => w ++ ['\n'])).flatten)).pathExists vp = true := by
          simp [FS.pathExists, FS.lookup_write_self]
        simp [create_vocabulary, h2]

/-- A concrete vocabulary path used by the witnesses below. -/
def vocabPathW : Path := "vocab.txt"

/-- A concrete corpus path used by the witnesses below. -/
def dataPathW : Path := "data.txt"

/-- A concrete encoded-output path used by the witnesses below. -/
def targetPathW : Path := "out.txt"

/-- A concrete file system already holding a vocabulary file. -/
def fsVocabW : FS := FS.mk [(vocabPathW, "x\n".toList)]

/-- Witness for C3: a file system that already holds a vocabulary file. -/
theorem create_vocabulary_idempotent_witness :
    create_vocabulary fsVocabW vocabPathW dataPathW 10 none true = (fsVocabW, none) ∧
    (create_vocabulary (create_vocabulary fsVocabW vocabPathW dataPathW 10 none true).1
        vocabPathW dataPathW 10 none true).1 =
      (create_vocabulary fsVocabW vocabPathW dataPathW 10 none true).1 := by
  have h := create_vocabulary_idempotent fsVocabW vocabPathW dataPathW 10 none true
  exact ⟨h.1 (by decide), h.2⟩

/-- Claim C5: loading a vocabulary fails with the vocabulary-not-found
error exactly when no file exists at the path; when a file exists it
returns, without failing, both the ordered token list (position = ID, each
line stripped of its terminator and surrounding whitespace) and the
token-to-ID mapping built from it. -/
theorem init_vocabulary_spec : ∀ (fs : FS) (p : Path),
    (fs.lookup p = none → init_vocabulary fs p = Except.error FsError.vocabularyNotFound) ∧
    (∀ c, fs.lookup p = some c →
      init_vocabulary fs p =
        Except.ok (buildDict ((linesOf c).map pyStrip), (linesOf c).map pyStrip)) := by
  intro fs p
  constructor
  · intro h
    simp [init_vocabulary, h]
  · intro c h
    simp [init_vocabulary, h]

/-- A concrete two-line vocabulary file content. -/
def vocabContentW : Bytes := "a\nb\n".toList

/-- A concrete file system holding the two-line vocabulary file. -/
def fsLoadW : FS := FS.mk [(vocabPathW, vocabContentW)]

/-- Witness for C5 at a concrete missing path and a concrete present file. -/
theorem init_vocabulary_spec_witness :
    init_vocabulary (FS.mk []) vocabPathW = Except.error FsError.vocabularyNotFound ∧
    init_vocabulary fsLoadW vocabPathW =
      Except.ok
        (buildDict ((linesOf vocabContentW).map pyStrip),
          (linesOf vocabContentW).map pyStrip) := by
  refine ⟨(init_vocabulary_spec (FS.mk []) vocabPathW).1 (by decide), ?_⟩
  exact (init_vocabulary_spec fsLoadW vocabPathW).2 vocabContentW (by decide)

/-- Claim C7: when neither the vocabulary file nor the corpus file exists,
`create_vocabulary` fails with the file-not-found error (the corpus is
opened before anything is written), the file system is unchanged, and in
particular no file — not even a partial one — exists afterwards at the
vocabulary path. -/
theorem create_vocabulary_missing_corpus : ∀ (fs : FS) (vp dp : Path) (m : Nat)
    (tok : Option Tokenizer) (nd : Bool),
    fs.lookup vp = none → fs.lookup dp = none →
    create_vocabulary fs vp dp m tok nd = (fs, some FsError.fileNotFound) ∧
    (create_vocabulary fs vp dp m tok nd).1.lookup vp = none := by
  intro fs vp dp m tok nd h1 h2
  have hex : fs.pathExists vp = false := by
    simp [FS.pathExists, h1]
  constructor
  · simp [create_vocabulary, hex, h2]
  · simp [create_vocabulary, hex, h2, h1]

/-- Witness for C7 on an empty file system. -/
theorem create_vocabulary_missing_corpus_witness :
    create_vocabulary (FS.mk []) vocabPathW dataPathW 10 none true =
      (FS.mk [], some FsError.fileNotFound) ∧
    (create_vocabulary (FS.mk []) vocabPathW dataPathW 10 none true).1.lookup vocabPathW =
      none := by
  exact create_vocabulary_missing_corpus (FS.mk []) vocabPathW dataPathW 10 none true
    (by decide) (by decide)

/-! ### Reserved symbols and truncation -/

theorem take4_start_append (s : List Bytes) : (_START_VOCAB ++ s).take 4 = _START_VOCAB := by
  have h : (4 : Nat) = _START_VOCAB.length := rfl
  rw [h, List.take_left]

/-- Claim C1 (amended): the vocabulary list written by `create_vocabulary`
always has length at most `max_vocabulary_size`, and whenever
`max_vocabulary_size ≥ 4` its first four entries are `_PAD`, `_GO`,
`_EOS`, `_UNK` in that fixed order.  (For `max_vocabulary_size < 4` the
truncation cuts into the reserved symbols themselves, see the
counterexample.) -/
theorem create_vocabulary_reserved : ∀ (fs : FS) (vp dp : Path) (m : Nat)
    (tok : Option Tokenizer) (nd : Bool) (content : Bytes),
    fs.lookup vp = none → fs.lookup dp = some content →
    (create_vocabulary fs vp dp m tok nd).1.lookup vp =
      some (((vocab_list_of tok nd content m).map (fun w => w ++ ['\n'])).flatten) ∧
    (vocab_list_of tok nd content m).length ≤ m ∧
    (4 ≤ m → (vocab_list_of tok nd content m).take 4 = _START_VOCAB) := by
  intro fs vp dp m tok nd content h1 h2
  have hex : fs.pathExists vp = false := by
    simp [FS.pathExists, h1]
  refine ⟨?_, ?_, ?_⟩
  · simp [create_vocabulary, hex, h2, FS.lookup_write_self]
  · simp only [vocab_list_of]
    split
    · rw [List.length_take]
      exact Nat.min_le_left _ _
    · next h => exact Nat.le_of_not_lt h
  · intro h4
    simp only [vocab_list_of]
    split
    · rw [List.take_take, Nat.min_eq_left h4]
      exact take4_start_append _
    · exact take4_start_append _

/-- A concrete file system holding an empty corpus and no vocabulary. -/
def fsEmptyCorpusW : FS := FS.mk [(dataPathW, [])]

/-- Counterexample to C1 as stated: with `max_vocabulary_size = 2` the
vocabulary file written by `create_vocabulary` holds only `_PAD` and
`_GO`, so its first four entries are not the four reserved symbols. -/
theorem create_vocabulary_reserved_counterexample :
    ¬ (((create_vocabulary fsEmptyCorpusW vocabPathW dataPathW 2 none true).1.lookup
          vocabPathW).map (fun c => ((linesOf c).map pyStrip).take 4) =
        some [_PAD, _GO, _EOS, _UNK]) := by
  decide

/-- Witness for C1 (amended) at a concrete corpus and size bound. -/
theorem create_vocabulary_reserved_witness :
    (create_vocabulary fsEmptyCorpusW vocabPathW dataPathW 10 none true).1.lookup vocabPathW =
      some (((vocab_list_of none true [] 10).map (fun w => w ++ ['\n'])).flatten) ∧
    (vocab_list_of none true [] 10).length ≤ 10 ∧
    (vocab_list_of none true [] 10).take 4 = _START_VOCAB := by
  have h := create_vocabulary_reserved fsEmptyCorpusW vocabPathW dataPathW 10 none true []
    (by decide) (by decide)
  exact ⟨h.1, h.2.1, h.2.2 (by omega)⟩

/-! ### Encoding single sentences -/

/-- Claim C2: `sentence_to_token_ids` is total — it returns one ID per
token, in order; a token whose (optionally digit-normalized) form is
present in the vocabulary maps to that vocabulary ID, and a token whose
form is absent maps to `UNK_ID = 3`. -/
theorem sentence_to_token_ids_spec : ∀ (sentence : Bytes) (vocabulary : Dict)
    (tok : Option Tokenizer) (nd : Bool),
    (sentence_to_token_ids sentence vocabulary tok nd).length =
      (applyTokenizer tok sentence).length ∧
    ∀ (i : Nat) (w : Bytes), (applyTokenizer tok sentence)[i]? = some w →
      (∀ id, dictGet vocabulary (if nd then subDigits w else w) = some id →
        (sentence_to_token_ids sentence vocabulary tok nd)[i]? = some id) ∧
      (dictGet vocabulary (if nd then subDigits w else w) = none →
        (sentence_to_token_ids sentence vocabulary tok nd)[i]? = some UNK_ID) := by
  intro s v tok nd
  cases nd with
  | false =>
    refine ⟨by simp [sentence_to_token_ids], ?_⟩
    intro i w hw
    constructor
    · intro id hid
      simp at hid
      simp [sentence_to_token_ids, hw, hid]
    · intro hnone
      simp at hnone
      simp [sentence_to_token_ids, hw, hnone]
  | true =>
    refine ⟨by simp [sentence_to_token_ids], ?_⟩
    intro i w hw
    constructor
    · intro id hid
      simp at hid
      simp [sentence_to_token_ids, hw, hid]
    · intro hnone
      simp at hnone
      simp [sentence_to_token_ids, hw, hnone]

/-- A concrete one-entry vocabulary used by the C2 witness. -/
def vocabDictW : Dict := [("a".toList, 7)]

/-- Witness for C2: with vocabulary `{a: 7}`, the in-vocabulary token `a`
encodes to `7` and the out-of-vocabulary token `9` encodes to `UNK_ID`. -/
theorem sentence_to_token_ids_spec_witness :
    (sentence_to_token_ids "a 9".toList vocabDictW none true)[0]? = some 7 ∧
    (sentence_to_token_ids "a 9".toList vocabDictW none true)[1]? = some UNK_ID := by
  have h := sentence_to_token_ids_spec "a 9".toList vocabDictW none true
  exact ⟨(h.2 0 "a".toList (by decide)).1 7 (by decide),
    (h.2 1 "9".toList (by decide)).2 (by decide)⟩

/-- Claim C9: digit normalization replaces every digit character of a
token by `0` before counting and before lookup, so `2024` and `1999`
share the bucket `0000` when `normalize_digits` is true — one vocabulary
entry, identical encodings — and remain distinct tokens when it is
false. -/
theorem digit_normalization_spec :
    (∀ w : Bytes, subDigits w = w.map (fun c => if c.isDigit then '0' else c)) ∧
    subDigits "2024".toList = "0000".toList ∧
    subDigits "1999".toList = "0000".toList ∧
    vocab_list_of none true "2024 1999".toList 100 = _START_VOCAB ++ ["0000".toList] ∧
    vocab_list_of none false "2024 1999".toList 100 =
      _START_VOCAB ++ ["2024".toList, "1999".toList] ∧
    sentence_to_token_ids "2024".toList (buildDict (_START_VOCAB ++ ["0000".toList]))
        none true =
      sentence_to_token_ids "1999".toList (buildDict (_START_VOCAB ++ ["0000".toList]))
        none true ∧
    sentence_to_token_ids "2024".toList
        (buildDict (_START_VOCAB ++ ["2024".toList, "1999".toList])) none false ≠
      sentence_to_token_ids "1999".toList
        (buildDict (_START_VOCAB ++ ["2024".toList, "1999".toList])) none false := by
  refine ⟨?_, by decide, by decide, by decide, by decide, by decide, by decide⟩
  intro w
  induction w with
  | nil => rfl
  | cons c cs ih => simp [subDigits, ih]

/-! ### Frequency counting and the descending sort -/

theorem find?_key_map (d : Dict) (g : Bytes × Nat → Bytes × Nat)
    (hg : ∀ e, (g e).1 = e.1) (k : Bytes) :
    (d.map g).find? (fun e => e.1 == k) = (d.find? (fun e => e.1 == k)).map g := by
  rw [List.find?_map]
  have hpred : ((fun e => e.1 == k) ∘ g) = (fun e : Bytes × Nat => e.1 == k) := by
    funext e
    simp [Function.comp, hg]
  rw [hpred]

theorem countOf_bumpCount (d : Dict) (u w : Bytes) :
    countOf (bumpCount d u) w = countOf d w + (if u = w then 1 else 0) := by
  unfold bumpCount
  cases hany : d.any (fun e => e.1 == u) with
  | true =>
    rw [if_pos rfl]
    simp only [countOf, dictGet]
    rw [find?_key_map d _ (by intro e; by_cases h : (e.1 == u) = true <;> simp [h]) w]
    cases hf : d.find? (fun e => e.1 == w) with
    | none =>
      by_cases huw : u = w
      · exfalso
        subst huw
        rcases List.any_eq_true.mp hany with ⟨e, he, hpe⟩
        exact (List.find?_eq_none.mp hf e he) hpe
      · simp [hf, huw]
    | some e =>
      have he1 : e.1 = w := by
        simpa using (List.find?_some hf)
      by_cases huw : u = w
      · subst huw
        simp [hf, he1]
      · have hne : (e.1 == u) = false := by
          rw [he1]
          simp
          intro h
          exact huw h.symm
        simp [hf, hne, huw]
        rw [he1, if_neg (fun h => huw h.symm)]
  | false =>
    rw [if_neg Bool.false_ne_true]
    simp only [countOf, dictGet]
    rw [List.find?_append]
    cases hf : d.find? (fun e => e.1 == w) with
    | some e =>
      have huw : ¬ (u = w) := by
        intro h
        subst h
        have he1 : e.1 = u := by
          simpa using (List.find?_some hf)
        have hall := List.any_eq_false.mp hany
        exact hall e (List.mem_of_find?_eq_some hf) (by simp [he1])
      simp [hf, huw, Option.or]
    | none =>
      by_cases huw : u = w
      · subst huw
        simp [hf, Option.or, List.find?_cons]
      · simp [hf, Option.or, List.find?_cons, huw, Ne.symm huw]

theorem countOf_foldl_bump : ∀ (ws : List Bytes) (d : Dict) (w : Bytes),
    countOf (ws.foldl bumpCount d) w = countOf d w + ws.count w := by
  intro ws
  induction ws with
  | nil =>
    intro d w
    simp
  | cons u us ih =>
    intro d w
    rw [List.foldl_cons, ih, countOf_bumpCount, List.count_cons]
    by_cases h : u = w
    · subst h
      simp
      omega
    · simp [h]

theorem countOf_countTokens (ws : List Bytes) (w : Bytes) :
    countOf (countTokens ws) w = ws.count w := by
  have h := countOf_foldl_bump ws [] w
  simpa [countTokens, countOf, dictGet] using h

theorem mem_insertDescBy (cnt : Bytes → Nat) (w y : Bytes) : ∀ (l : List Bytes),
    y ∈ insertDescBy cnt w l ↔ y = w ∨ y ∈ l := by
  intro l
  induction l with
  | nil => simp [insertDescBy]
  | cons x xs ih =>
    simp only [insertDescBy]
    by_cases h : cnt w < cnt x
    · rw [if_pos h]
      simp only [List.mem_cons, ih]
      tauto
    · rw [if_neg h]
      simp only [List.mem_cons]

theorem pairwise_insertDescBy (cnt : Bytes → Nat) (w : Bytes) : ∀ (l : List Bytes),
    l.Pairwise (fun a b => cnt b ≤ cnt a) →
    (insertDescBy cnt w l).Pairwise (fun a b => cnt b ≤ cnt a) := by
  intro l
  induction l with
  | nil =>
    intro _
    simp [insertDescBy]
  | cons x xs ih =>
    intro hl
    rcases List.pairwise_cons.mp hl with ⟨hx, hxs⟩
    simp only [insertDescBy]
    by_cases h : cnt w < cnt x
    · rw [if_pos h]
      refine List.pairwise_cons.mpr ⟨?_, ih hxs⟩
      intro y hy
      rcases (mem_insertDescBy cnt w y xs).mp hy with rfl | hy'
      · exact Nat.le_of_lt h
      · exact hx y hy'
    · rw [if_neg h]
      refine List.pairwise_cons.mpr ⟨?_, hl⟩
      intro y hy
      rcases List.mem_cons.mp hy with rfl | hy'
      · exact Nat.le_of_not_lt h
      · exact Nat.le_trans (hx y hy') (Nat.le_of_not_lt h)

theorem pairwise_sortDescBy (cnt : Bytes → Nat) : ∀ (l : List Bytes),
    (sortDescBy cnt l).Pairwise (fun a b => cnt b ≤ cnt a) := by
  intro l
  induction l with
  | nil => simp [sortDescBy]
  | cons w ws ih =>
    simp only [sortDescBy]
    exact pairwise_insertDescBy cnt w _ ih

/-- Claim C4: in the vocabulary list `create_vocabulary` produces, the
tokens that follow the four reserved symbols are ordered by non-increasing
frequency in the (digit-normalized) corpus token stream: any later entry's
count never exceeds any earlier entry's count. -/
theorem vocab_list_freq_order : ∀ (tok : Option Tokenizer) (nd : Bool)
    (content : Bytes) (m : Nat),
    ((vocab_list_of tok nd content m).drop 4).Pairwise
      (fun a b => (corpusTokens tok nd content).count b ≤
        (corpusTokens tok nd content).count a) := by
  intro tok nd content m
  have hsorted := pairwise_sortDescBy
    (fun w => countOf (countTokens (corpusTokens tok nd content)) w)
    ((countTokens (corpusTokens tok nd content)).map (fun e => e.1))
  have hcount := hsorted.imp
    (fun {a b} h => by rwa [countOf_countTokens, countOf_countTokens] at h)
  have h4 : (4 : Nat) = _START_VOCAB.length := rfl
  simp only [vocab_list_of]
  split
  · rw [List.drop_take, h4, List.drop_left]
    exact List.Pairwise.sublist (List.take_sublist _ _) hcount
  · rw [h4, List.drop_left]
    exact hcount

/-! ### Duplicate tokens: the later position wins the mapping -/

/-- Index of the last occurrence of `t` in `l`, if any. -/
def lastIdx : List Bytes → Bytes → Option Nat
  | [], _ => none
  | x :: xs, t =>
    match lastIdx xs t with
    | some k => some (k + 1)
    | none => if x = t then some 0 else none

theorem lastIdx_none_not_mem : ∀ (l : List Bytes) (t : Bytes),
    lastIdx l t = none → t ∉ l := by
  intro l t
  induction l with
  | nil =>
    intro _
    simp
  | cons x xs ih =>
    intro h hmem
    cases hk : lastIdx xs t with
    | some k =>
      simp only [lastIdx, hk] at h
      exact Option.noConfusion h
    | none =>
      simp only [lastIdx, hk] at h
      by_cases hx : x = t
      · rw [if_pos hx] at h
        exact Option.noConfusion h
      · rcases List.mem_cons.mp hmem with h1 | h1
        · exact hx h1.symm
        · exact ih hk h1

theorem lastIdx_getElem : ∀ (l : List Bytes) (t : Bytes) (k : Nat),
    lastIdx l t = some k → l[k]? = some t := by
  intro l
  induction l with
  | nil =>
    intro t k h
    simp [lastIdx] at h
  | cons x xs ih =>
    intro t k h
    cases hk : lastIdx xs t with
    | some k' =>
      simp only [lastIdx, hk] at h
      obtain rfl : k = k' + 1 := (Option.some.inj h).symm
      rw [List.getElem?_cons_succ]
      exact ih t k' hk
    | none =>
      simp only [lastIdx, hk] at h
      by_cases hx : x = t
      · rw [if_pos hx] at h
        obtain rfl : k = 0 := (Option.some.inj h).symm
        rw [List.getElem?_cons_zero, hx]
      · rw [if_neg hx] at h
        exact Option.noConfusion h

theorem lastIdx_maximal : ∀ (l : List Bytes) (t : Bytes) (k : Nat),
    lastIdx l t = some k → ∀ j, k < j → l[j]? ≠ some t := by
  intro l
  induction l with
  | nil =>
    intro t k h
    simp [lastIdx] at h
  | cons x xs ih =>
    intro t k h j hj
    cases hk : lastIdx xs t with
    | some k' =>
      simp only [lastIdx, hk] at h
      obtain rfl : k = k' + 1 := (Option.some.inj h).symm
      cases j with
      | zero => omega
      | succ j' =>
        rw [List.getElem?_cons_succ]
        exact ih t k' hk j' (by omega)
    | none =>
      simp only [lastIdx, hk] at h
      by_cases hx : x = t
      · rw [if_pos hx] at h
        obtain rfl : k = 0 := (Option.some.inj h).symm
        cases j with
        | zero => omega
        | succ j' =>
          rw [List.getElem?_cons_succ]
          intro hmem
          exact lastIdx_none_not_mem xs t hk (List.getElem?_mem hmem)
      · rw [if_neg hx] at h
        exact Option.noConfusion h

theorem dictGet_dictInsert_self (d : Dict) (k : Bytes) (v : Nat) :
    dictGet (dictInsert d k v) k = some v := by
  unfold dictInsert
  cases hany : d.any (fun e => e.1 == k) with
  | true =>
    rw [if_pos rfl]
    simp only [dictGet]
    rw [find?_key_map d _ (by intro e; by_cases h : (e.1 == k) = true <;> simp [h]) k]
    rcases List.any_eq_true.mp hany with ⟨e, he, hpe⟩
    cases hf : d.find? (fun e => e.1 == k) with
    | none => exact absurd hpe (List.find?_eq_none.mp hf e he)
    | some e' =>
      have hp := List.find?_some hf
      simp at hp
      simp [hp]
  | false =>
    rw [if_neg Bool.false_ne_true]
    simp only [dictGet]
    rw [List.find?_append]
    have hf : d.find? (fun e => e.1 == k) = none :=
      List.find?_eq_none.mpr (List.any_eq_false.mp hany)
    simp [hf, List.find?_cons]

theorem dictGet_dictInsert_ne (d : Dict) (k : Bytes) (v : Nat) (q : Bytes)
    (hq : q ≠ k) : dictGet (dictInsert d k v) q = dictGet d q := by
  unfold dictInsert
  cases hany : d.any (fun e => e.1 == k) with
  | true =>
    rw [if_pos rfl]
    simp only [dictGet]
    rw [find?_key_map d _ (by intro e; by_cases h : (e.1 == k) = true <;> simp [h]) q]
    cases hf : d.find? (fun e => e.1 == q) with
    | none => simp
    | some e =>
      have he1 : e.1 = q := by
        simpa using List.find?_some hf
      have hne : (e.1 == k) = false := by
        rw [beq_eq_false_iff_ne, he1]
        exact hq
      simp [hne]
      rw [he1, if_neg hq]
  | false =>
    rw [if_neg Bool.false_ne_true]
    simp only [dictGet]
    rw [List.find?_append]
    cases hf : d.find? (fun e => e.1 == q) with
    | some e => simp [hf, Option.or]
    | none =>
      have hkq : (k == q) = false := beq_eq_false_iff_ne.mpr (fun h => hq h.symm)
      simp [hf, List.find?_cons, hkq]

theorem dictGet_foldl_dictInsert : ∀ (ps : List (Bytes × Nat)) (d : Dict) (t : Bytes),
    dictGet (ps.foldl (fun d kv => dictInsert d kv.1 kv.2) d) t =
      ((ps.reverse.find? (fun kv => kv.1 == t)).map (fun kv => kv.2)).or (dictGet d t) := by
  intro ps
  induction ps with
  | nil =>
    intro d t
    simp
  | cons kv ps ih =>
    intro d t
    rw [List.foldl_cons, ih, List.reverse_cons, List.find?_append]
    cases hf : ps.reverse.find? (fun kv => kv.1 == t) with
    | some e => simp [Option.or]
    | none =>
      simp only [Option.map_none', Option.none_or]
      by_cases hk : kv.1 = t
      · have h1 : dictGet (dictInsert d kv.1 kv.2) t = some kv.2 := by
          rw [← hk]
          exact dictGet_dictInsert_self d kv.1 kv.2
        have h2 : (kv.1 == t) = true := by simp [hk]
        simp [h1, List.find?_cons, h2]
      · rw [dictGet_dictInsert_ne d kv.1 kv.2 t (fun h => hk h.symm)]
        have h2 : (kv.1 == t) = false := beq_eq_false_iff_ne.mpr hk
        simp [List.find?_cons, h2]

theorem findLast_enumFrom : ∀ (l : List Bytes) (i : Nat) (t : Bytes),
    ((List.enumFrom i l).reverse.find? (fun e => e.2 == t)) =
      (lastIdx l t).map (fun k => (i + k, t)) := by
  intro l
  induction l with
  | nil =>
    intro i t
    simp [lastIdx]
  | cons x xs ih =>
    intro i t
    rw [List.enumFrom_cons, List.reverse_cons, List.find?_append, ih (i + 1)]
    cases hk : lastIdx xs t with
    | some k =>
      simp only [lastIdx, hk, Option.map_some']
      have h1 : i + 1 + k = i + (k + 1) := by omega
      rw [h1]
      rfl
    | none =>
      simp only [lastIdx, hk, Option.map_none', Option.none_or]
      by_cases hx : x = t
      · subst hx
        simp [List.find?_cons]
      · have hxt : (x == t) = false := beq_eq_false_iff_ne.mpr hx
        simp [List.find?_cons, hxt, hx]

theorem dictGet_buildDict (rev : List Bytes) (t : Bytes) :
    dictGet (buildDict rev) t = lastIdx rev t := by
  unfold buildDict
  rw [dictGet_foldl_dictInsert]
  have h0 : dictGet ([] : Dict) t = none := rfl
  rw [h0, Option.or_none, List.reverse_map, List.find?_map]
  have hpred : ((fun kv : Bytes × Nat => kv.1 == t) ∘ (fun e : Nat × Bytes => (e.2, e.1))) =
      (fun e : Nat × Bytes => e.2 == t) := rfl
  rw [hpred, List.enum_eq_enumFrom, findLast_enumFrom rev 0 t, Option.map_map,
    Option.map_map]
  cases lastIdx rev t with
  | none => rfl
  | some k => simp [Function.comp]

/-- The mapping built by the vocabulary loader resolves a duplicated token
to its last (largest) file position. -/
theorem buildDict_last_wins (rev : List Bytes) (t : Bytes) (ht : t ∈ rev) :
    ∃ k, dictGet (buildDict rev) t = some k ∧ rev[k]? = some t ∧
      ∀ j, k < j → rev[j]? ≠ some t := by
  cases hk : lastIdx rev t with
  | none => exact absurd ht (lastIdx_none_not_mem rev t hk)
  | some k =>
    exact ⟨k, by rw [dictGet_buildDict, hk], lastIdx_getElem rev t k hk,
      lastIdx_maximal rev t k hk⟩

/-- Claim C6: loading a vocabulary file performs no deduplication — the
ordered list keeps every line, duplicates included — and the token-to-ID
mapping assigns a duplicated token the ID of its later (largest) position
in the file: the ID points at an occurrence of the token after which the
token never occurs again. -/
theorem init_vocabulary_last_wins : ∀ (fs : FS) (p : Path) (c : Bytes),
    fs.lookup p = some c →
    init_vocabulary fs p =
      Except.ok (buildDict ((linesOf c).map pyStrip), (linesOf c).map pyStrip) ∧
    ∀ t, t ∈ (linesOf c).map pyStrip →
      ∃ k, dictGet (buildDict ((linesOf c).map pyStrip)) t = some k ∧
        ((linesOf c).map pyStrip)[k]? = some t ∧
        ∀ j, k < j → ((linesOf c).map pyStrip)[j]? ≠ some t := by
  intro fs p c h
  refine ⟨by simp [init_vocabulary, h], ?_⟩
  intro t ht
  exact buildDict_last_wins _ t ht

/-- A vocabulary file with a duplicated token `a` at positions 0 and 2. -/
def dupContentW : Bytes := "a\nb\na\n".toList

/-- A concrete file system holding the duplicated vocabulary file. -/
def fsDupW : FS := FS.mk [(vocabPathW, dupContentW)]

/-- Witness for C6: on the duplicated file, the loader keeps all three
lines and maps `a` to an ID after which `a` does not occur again. -/
theorem init_vocabulary_last_wins_witness :
    init_vocabulary fsDupW vocabPathW =
      Except.ok (buildDict ((linesOf dupContentW).map pyStrip),
        (linesOf dupContentW).map pyStrip) ∧
    ∃ k, dictGet (buildDict ((linesOf dupContentW).map pyStrip)) ("a".toList) = some k ∧
      ((linesOf dupContentW).map pyStrip)[k]? = some ("a".toList) ∧
      ∀ j, k < j → ((linesOf dupContentW).map pyStrip)[j]? ≠ some ("a".toList) := by
  have h := init_vocabulary_last_wins fsDupW vocabPathW dupContentW (by decide)
  exact ⟨h.1, h.2 ("a".toList) (by decide)⟩

/-! ### The encoded corpus file -/

theorem digitChar_isDigit : ∀ d : Nat, d < 10 → (digitChar d).isDigit = true := by
  decide

theorem natDigitsAux_isDigit : ∀ (fuel n : Nat) (c : Char),
    c ∈ natDigitsAux fuel n → c.isDigit = true := by
  intro fuel
  induction fuel with
  | zero =>
    intro n c hc
    simp [natDigitsAux] at hc
  | succ fuel ih =>
    intro n c hc
    by_cases h : n < 10
    · simp only [natDigitsAux, if_pos h, List.mem_singleton] at hc
      subst hc
      exact digitChar_isDigit n h
    · simp only [natDigitsAux, if_neg h] at hc
      rcases List.mem_append.mp hc with h1 | h1
      · exact ih (n / 10) c h1
      · rw [List.mem_singleton] at h1
        subst h1
        exact digitChar_isDigit (n % 10) (Nat.mod_lt n (by omega))

theorem newline_not_mem_natDigits (n : Nat) : '\n' ∉ natDigits n := by
  intro h
  have hd := natDigitsAux_isDigit (n + 1) n '\n' h
  exact absurd hd (by decide)

theorem newline_not_mem_spaceJoin : ∀ (L : List Bytes), (∀ w ∈ L, '\n' ∉ w) →
    '\n' ∉ spaceJoin L := by
  intro L
  induction L with
  | nil =>
    intro _
    simp [spaceJoin]
  | cons w ws ih =>
    intro h
    cases ws with
    | nil =>
      simp only [spaceJoin]
      exact h w (by simp)
    | cons x xs =>
      simp only [spaceJoin]
      intro hmem
      rcases List.mem_append.mp hmem with h1 | h1
      · exact h w (by simp) h1
      · rcases List.mem_cons.mp h1 with h2 | h2
        · exact absurd h2 (by decide)
        · exact ih (fun v hv => h v (List.mem_cons_of_mem _ hv)) h2

theorem newline_not_mem_renderIds (ids : List Nat) : '\n' ∉ renderIds ids := by
  refine newline_not_mem_spaceJoin _ ?_
  intro w hw
  rcases List.mem_map.mp hw with ⟨n, _, rfl⟩
  exact newline_not_mem_natDigits n

theorem linesAux_line : ∀ (l : Bytes), '\n' ∉ l → ∀ (rest acc : Bytes),
    linesAux (l ++ '\n' :: rest) acc =
      (acc.reverse ++ l ++ ['\n']) :: linesAux rest [] := by
  intro l
  induction l with
  | nil =>
    intro _ rest acc
    simp [linesAux]
  | cons c cs ih =>
    intro h rest acc
    have hc : ¬ (c = '\n') := fun e => h (by simp [e])
    simp only [List.cons_append, linesAux, if_neg hc, List.append_eq]
    rw [ih (fun hm => h (List.mem_cons_of_mem _ hm)) rest (c :: acc)]
    simp

theorem linesOf_flatten : ∀ (L : List Bytes), (∀ l ∈ L, '\n' ∉ l) →
    linesOf ((L.map (fun l => l ++ ['\n'])).flatten) = L.map (fun l => l ++ ['\n']) := by
  intro L
  induction L with
  | nil =>
    intro _
    rfl
  | cons l ls ih =>
    intro h
    simp only [List.map_cons, List.flatten_cons]
    have happ : (l ++ ['\n']) ++ (ls.map (fun l => l ++ ['\n'])).flatten =
        l ++ '\n' :: (ls.map (fun l => l ++ ['\n'])).flatten := by
      simp
    rw [linesOf, happ, linesAux_line l (h l (by simp)) _ []]
    simp only [List.reverse_nil, List.nil_append]
    congr 1
    exact ih (fun x hx => h x (List.mem_cons_of_mem _ hx))

/-- Claim C8: when the target file does not exist (and the vocabulary and
corpus do), `data_to_token_ids` succeeds and the target file it writes
parses back into exactly one line per corpus line, in corpus order, each
line being the space-joined decimal IDs `sentence_to_token_ids` produces
for that corpus line (plus the terminating linefeed); when the target file
already exists the call is a no-op and the file system is unchanged. -/
theorem data_to_token_ids_spec : ∀ (fs : FS) (dp tp vp : Path)
    (tok : Option Tokenizer) (nd : Bool),
    (fs.pathExists tp = true → data_to_token_ids fs dp tp vp tok nd = (fs, none)) ∧
    (∀ vc dc, fs.lookup tp = none → fs.lookup vp = some vc → fs.lookup dp = some dc →
      (data_to_token_ids fs dp tp vp tok nd).2 = none ∧
      ((data_to_token_ids fs dp tp vp tok nd).1.lookup tp).map linesOf =
        some ((linesOf dc).map (fun line =>
          renderIds (sentence_to_token_ids line
            (buildDict ((linesOf vc).map pyStrip)) tok nd) ++ ['\n']))) := by
  intro fs dp tp vp tok nd
  constructor
  · intro h
    simp [data_to_token_ids, h]
  · intro vc dc htp hvp hdp
    have hex : fs.pathExists tp = false := by
      simp [FS.pathExists, htp]
    have hinit : init_vocabulary fs vp =
        Except.ok (buildDict ((linesOf vc).map pyStrip), (linesOf vc).map pyStrip) := by
      simp [init_vocabulary, hvp]
    constructor
    · simp [data_to_token_ids, hex, hinit, hdp]
    · simp only [data_to_token_ids, hex, Bool.false_eq_true, if_false, hinit, hdp]
      rw [FS.lookup_write_self]
      simp only [Option.map_some']
      congr 1
      have hnl : ∀ l ∈ (linesOf dc).map (fun line =>
          renderIds (sentence_to_token_ids line
            (buildDict ((linesOf vc).map pyStrip)) tok nd)), '\n' ∉ l := by
        intro l hl
        rcases List.mem_map.mp hl with ⟨line, _, rfl⟩
        exact newline_not_mem_renderIds _
      have hmap : (linesOf dc).map (fun line =>
          renderIds (sentence_to_token_ids line
            (buildDict ((linesOf vc).map pyStrip)) tok nd) ++ ['\n']) =
          ((linesOf dc).map (fun line =>
            renderIds (sentence_to_token_ids line
              (buildDict ((linesOf vc).map pyStrip)) tok nd))).map
            (fun l => l ++ ['\n']) := by
        rw [List.map_map]
        rfl
      rw [hmap, linesOf_flatten _ hnl]

/-- A concrete five-line vocabulary file for the C8 witness. -/
def encVocabContentW : Bytes := "_PAD\n_GO\n_EOS\n_UNK\na\n".toList

/-- A concrete one-line corpus for the C8 witness. -/
def encDataContentW : Bytes := "a b\n".toList

/-- A concrete file system holding the vocabulary and corpus files. -/
def fsEncW : FS := FS.mk [(vocabPathW, encVocabContentW), (dataPathW, encDataContentW)]

/-- Witness for C8: the corpus line `a b` encodes to the file line `4 3`
(`a` is ID 4, `b` is out of vocabulary), and a call whose target already
exists is a no-op. -/
theorem data_to_token_ids_spec_witness :
    data_to_token_ids fsEncW dataPathW vocabPathW vocabPathW none true = (fsEncW, none) ∧
    (data_to_token_ids fsEncW dataPathW targetPathW vocabPathW none true).2 = none ∧
    ((data_to_token_ids fsEncW dataPathW targetPathW vocabPathW none true).1.lookup
        targetPathW).map linesOf = some ["4 3\n".toList] := by
  have h := (data_to_token_ids_spec fsEncW dataPathW targetPathW vocabPathW none true).2
    encVocabContentW encDataContentW (by decide) (by decide) (by decide)
  refine ⟨(data_to_token_ids_spec fsEncW dataPathW vocabPathW vocabPathW none true).1
    (by decide), h.1, ?_⟩
  rw [h.2]
  decide

end DataUtils
